import Mathlib

/-!
Verification of the clause extraction, tagging, scoring and aggregation core
of the terms-and-conditions analyzer.

The Python sources are embedded shallowly:
* strings are Lean `String`s, manipulated through their `List Char` data;
* Python dicts that are iterated in insertion order are association lists;
* the fallible dictionary subscript `per_cat[cat]` (which can raise
  `KeyError`) is modelled with `Option`;
* the external summarization model (`transformers` pipeline, an external
  collaborator per the spec) is an explicit function parameter
  `summ : String → Nat → Nat → Option (Option String)`, where the outer
  `none` models an exception inside the collaborator call and the inner
  `none` models a missing/None `summary_text` field.

`src/utils.py` and `src/pipeline.py` are two incompatible revisions:
`pipeline.py` imports `clean_text` from `utils` (absent there), calls
`risk_for_sentence(s, risk_scores)` with two arguments (the shipped
function takes one), and iterates `tag_sentence`'s result with `.items()`
(the shipped function returns a list).  The shipped `utils.py` functions
are embedded as they are written; the helper versions that `pipeline.py`
requires are modelled from the spec and carry doc comments saying so.
-/

namespace TCA

/-! ## Basic character and string helpers -/

/-- Whitespace characters recognised by Python's `str.strip`, `\s` and
`str.split`-style operations (space, tab, newline, carriage return,
vertical tab, form feed). -/
def isWsB (c : Char) : Bool :=
  c == ' ' || c == '\t' || c == '\n' || c == '\r' || c == '\x0b' || c == '\x0c'

/-- ASCII lowercase map, the relevant fragment of Python's `str.lower` for
the keyword and sentence material of this program. -/
def strLower (s : String) : String :=
  String.mk (s.data.map Char.toLower)

/-- Prefix test on character lists. -/
def isPrefixL : List Char → List Char → Bool
  | [], _ => true
  | _ :: _, [] => false
  | a :: as, b :: bs => a == b && isPrefixL as bs

/-- Substring test on character lists: Python's `needle in haystack`. -/
def substrL : List Char → List Char → Bool
  | needle, [] => needle.isEmpty
  | needle, h :: hs => isPrefixL needle (h :: hs) || substrL needle hs

/-- Python's `needle in hay` on strings. -/
def strContains (hay needle : String) : Bool :=
  substrL needle.data hay.data

/-! ## src/utils.py as shipped -/

/-- Inner loop of `utils.tag_sentence`: iterate the keyword configuration in
order; a category is appended once as soon as one of its keywords matches
(the `break` in the source), so the result is a bare list of category
names. -/
def tsGo (s : String) : List (String × List String) → List String
  | [] => []
  | p :: rest =>
    if p.2.any (fun kw => strContains s (strLower kw)) then
      p.1 :: tsGo s rest
    else
      tsGo s rest

/-- `utils.tag_sentence` (src/utils.py lines 22-36), with the keyword
configuration passed explicitly (the Python default `DEFAULT_KEYWORDS` is
just one possible argument).  Lowercases the sentence and each keyword and
returns the list of category names with at least one case-insensitive
substring match. -/
def tag_sentence (sentence : String) (keywords : List (String × List String)) : List String :=
  tsGo (strLower sentence) keywords

/-- Inner loop of `utils.risk_for_sentence`, iterating the weight table in
order.  Note the source tests `if kw in s` with `s = sentence.lower()` but
does NOT lowercase `kw`. -/
def rfsGo (s : String) : List (String × Int) → Int × List String
  | [] => (0, [])
  | p :: rest =>
    if strContains s p.1 then (p.2 + (rfsGo s rest).1, p.1 :: (rfsGo s rest).2)
    else rfsGo s rest

/-- `utils.risk_for_sentence` (src/utils.py lines 39-51): score and trigger
list for a sentence.  The module-global table `RISK_SCORES` is passed
explicitly as `table`. -/
def risk_for_sentence (sentence : String) (table : List (String × Int)) : Int × List String :=
  rfsGo (strLower sentence) table

/-- `utils.band` (src/utils.py lines 54-62): numeric score to band label. -/
def band (score : Int) : String :=
  if 6 ≤ score then "High"
  else if 3 ≤ score then "Medium"
  else "Low"

/-- `utils.provenance_dict` (src/utils.py lines 65-67): the provenance
Python dict with its two keys in insertion order. -/
def provenance_dict (snippet location : String) : List (String × String) :=
  [("snippet", snippet), ("location", location)]

/-- `config.RISK_SCORES` from src/config.py. -/
def RISK_SCORES : List (String × Int) :=
  [("sell data", 5), ("arbitrat", 3), ("class action", 3), ("waive", 2), ("indemnify", 3),
   ("unauthorized access", 4), ("data breach", 4), ("monitor", 3), ("suspend", 3),
   ("no refund", 3), ("hidden fee", 3), ("auto-renew", 3), ("late fee", 3),
   ("prepayment penalty", 4), ("variable rate", 3), ("acceleration", 5), ("default", 4),
   ("limit our liability", 3), ("share", 1), ("non-refundable", 4), ("pre-existing condition", 4),
   ("exclusion", 3), ("repossession", 5), ("as is", 3), ("no warranty", 4)]

/-- Numeric rank of a band label under Low < Medium < High; also the clause
weight used by `process_document` lines 78 and 91-93 (`{"High":3,
"Medium":2,"Low":1}` with `else`-branch 1). -/
def riskWeight (r : String) : Int :=
  if r = "High" then 3 else if r = "Medium" then 2 else 1

/-! ## Category tagger and risk scorer expected by pipeline.py -/

/-- Modelled from the spec: the Category Tagger that `process_document`
requires (`matched_cats.items()` at src/pipeline.py line 61).  The shipped
`src/utils.py` holds an older incompatible revision returning a bare list,
so this mapping-returning version is taken from §4.3 of the spec: "mapping
from matched category name to the ordered sequence of keywords from that
category found as case-insensitive substrings in the sentence". -/
def tvGo (s : String) : List (String × List String) → List (String × List String)
  | [] => []
  | p :: rest =>
    if (p.2.filter (fun kw => strContains s (strLower kw))).isEmpty then tvGo s rest
    else (p.1, p.2.filter (fun kw => strContains s (strLower kw))) :: tvGo s rest

/-- Modelled from the spec: see `tvGo`. -/
def tag_sentence_v17 (sentence : String) (keywords : List (String × List String)) :
    List (String × List String) :=
  tvGo (strLower sentence) keywords

/-- Modelled from the spec: the Risk Scorer that `process_document` calls
as `risk_for_sentence(s, risk_scores)` (src/pipeline.py line 60); the
shipped `src/utils.py` version takes no table argument.  From §4.4 of the
spec: "sum of point values for every weight-table key found as a
case-insensitive substring, with each matching key appended to
`triggers`". -/
def rvGo (s : String) : List (String × Int) → Int × List String
  | [] => (0, [])
  | p :: rest =>
    if strContains s (strLower p.1) then (p.2 + (rvGo s rest).1, p.1 :: (rvGo s rest).2)
    else rvGo s rest

/-- Modelled from the spec: see `rvGo`. -/
def risk_for_sentence_v17 (sentence : String) (risk_scores : List (String × Int)) :
    Int × List String :=
  rvGo (strLower sentence) risk_scores

/-! ## Text normalizer (clean_text), modelled from the spec

`pipeline.py` line 10 imports `clean_text` from `utils`, but the shipped
`src/utils.py` does not define it, so the normalizer itself is code of the
repository missing from src/.  It is modelled from §4.1 of the spec. -/

/-- Rule (a) of §4.1: a trailing hyphen immediately followed by a line
break is deleted along with the break, joining the split word. -/
def dehyph : List Char → List Char
  | [] => []
  | [c] => [c]
  | a :: b :: rest =>
    if a == '-' && b == '\n' then dehyph rest
    else a :: dehyph (b :: rest)

/-- Is the head of the list a newline? -/
def headIsNl : List Char → Bool
  | [] => false
  | c :: _ => c == '\n'

/-- Rule (b) of §4.1: collapse single line breaks (those with no adjacent
line break, i.e. not part of a blank-line paragraph break) into a single
space.  The flag records whether the previous original character was a
newline. -/
def sbGo : Bool → List Char → List Char
  | _, [] => []
  | p, c :: rest =>
    if c == '\n' then
      (if p || headIsNl rest then '\n' else ' ') :: sbGo true rest
    else
      c :: sbGo false rest

/-- Characters removed by rule (c) of §4.1: non-printable control
characters (C0 controls other than tab/newline/carriage return, and
DEL). -/
def isCtrlRm (c : Char) : Bool :=
  (decide (c.toNat < 32) && !(c == '\t' || c == '\n' || c == '\r')) || c.toNat == 127

/-- Keep-predicate for rule (c). -/
def rcKeep (c : Char) : Bool := !(isCtrlRm c)

/-- Rule (c) of §4.1: strip non-printable control characters. -/
def rc (l : List Char) : List Char := l.filter rcKeep

/-- Is the head of the list whitespace? -/
def headIsWs : List Char → Bool
  | [] => false
  | c :: _ => isWsB c

/-- Rule (d) of §4.1: collapse every run of 2 or more whitespace characters
into one space (a lone whitespace character is left as it is).  The flag
records being inside a run whose single replacement space has already been
emitted. -/
def cwGo : Bool → List Char → List Char
  | _, [] => []
  | inRun, c :: rest =>
    if isWsB c then
      if inRun then cwGo true rest
      else if headIsWs rest then ' ' :: cwGo true rest
      else c :: cwGo false rest
    else c :: cwGo false rest

/-- Remove trailing whitespace. -/
def trimR : List Char → List Char
  | [] => []
  | c :: rest =>
    match trimR rest with
    | [] => if isWsB c then [] else [c]
    | r => c :: r

/-- Python's `str.strip`: remove leading and trailing whitespace. -/
def trimL (l : List Char) : List Char := trimR (l.dropWhile isWsB)

/-- The §4.1 normalization pipeline on character lists: rules (a) to (e)
in order. -/
def cleanL (l : List Char) : List Char :=
  trimL (cwGo false (rc (sbGo false (dehyph l))))

/-- Modelled from the spec: `clean_text`, imported by `pipeline.py` from
`utils` but absent from the shipped `src/utils.py`.  §4.1: apply in order
(a) dehyphenation, (b) collapse of single line breaks into a space,
(c) stripping of non-printable control characters, (d) collapse of runs of
2+ whitespace into one space, (e) trim. -/
def clean_text (s : String) : String :=
  String.mk (cleanL s.data)

/-- Every newline in the list is part of a blank-line break: it is directly
preceded (tracked by the flag) or followed by another newline. -/
def nlOkP : Bool → List Char → Bool
  | _, [] => true
  | p, c :: rest => (!(c == '\n') || p || headIsNl rest) && nlOkP (c == '\n') rest

/-- No two adjacent whitespace characters. -/
def noRunB : List Char → Bool
  | [] => true
  | c :: rest => !(isWsB c && headIsWs rest) && noRunB rest

/-- Is the last character whitespace? -/
def lastIsWs : List Char → Bool
  | [] => false
  | [c] => isWsB c
  | _ :: c :: rest => lastIsWs (c :: rest)

/-! ## Sentence segmenter (utils.sentences) -/

/-- Splitter loop for `re.split(r"(?<=[.!?])\s+", text)`: a maximal
whitespace run whose first character directly follows `.`, `!` or `?` is a
split point and is consumed; any other whitespace stays inside the current
piece.  Arguments: are we inside a consumed whitespace run, did the
previous character terminate a sentence, the piece accumulated so far, the
remaining input. -/
def ssGo : Bool → Bool → List Char → List Char → List (List Char)
  | _, _, cur, [] => [cur]
  | inSplit, prevP, cur, c :: rest =>
    if inSplit && isWsB c then ssGo true false cur rest
    else if !inSplit && isWsB c && prevP then cur :: ssGo true false [] rest
    else ssGo false (c == '.' || c == '!' || c == '?') (cur ++ [c]) rest

/-- `utils.sentences` (src/utils.py lines 14-19): split text on whitespace
following sentence-terminal punctuation, strip each piece, keep the
non-empty ones. -/
def sentences (text : String) : List String :=
  ((ssGo false false [] text.data).map trimL).filterMap
    (fun p => if p.isEmpty then none else some (String.mk p))

/-! ## Data model of the pipeline -/

/-- A Clause Record as built at src/pipeline.py lines 62-65: the Python
dict with keys `text`, `risk`, `rationale`, `provenance`, `score`. -/
structure Clause where
  text : String
  risk : String
  rationale : List String
  provenance : List (String × String)
  score : Int
deriving DecidableEq

/-- A Category Result as built at src/pipeline.py lines 79-82. -/
structure CategoryResult where
  category : String
  category_summary : String
  category_risk : String
  bullets : List Clause
deriving DecidableEq

/-- The Document Result returned at src/pipeline.py lines 99-104.  The
score, a Python float produced by exact small-integer arithmetic and one
division, is modelled as a rational. -/
structure DocumentResult where
  ai_summary : String
  categories : List CategoryResult
  raw_text : String
  overall_risk_score : ℚ
deriving DecidableEq

/-- The configuration dict: `config.get("keywords", {})`,
`config.get("categories", [])` and `config.get("risk_scores", {})`;
absent keys are the empty mappings/list. -/
structure Config where
  keywords : List (String × List String)
  categories : List String
  risk_scores : List (String × Int)

/-- First-match lookup in an association list (Python dict access by
key, for dicts represented in insertion order with unique keys). -/
def alookup {α : Type} : List (String × α) → String → Option α
  | [], _ => none
  | p :: rest, k => if p.1 = k then some p.2 else alookup rest k

/-- Deduplication keeping the first occurrence, with an accumulator of
already-seen keys (the key order of a Python dict built by repeated
insertion). -/
def fdGo (seen : List String) : List String → List String
  | [] => []
  | a :: l => if a ∈ seen then fdGo seen l else a :: fdGo (seen ++ [a]) l

/-- Keys of a Python dict comprehension, in first-occurrence order. -/
def firstDedup (l : List String) : List String := fdGo [] l

/-- `per_cat = {c: [] for c in categories}` (src/pipeline.py line 50). -/
def perCatInit (cats : List String) : List (String × List Clause) :=
  (firstDedup cats).map (fun c => (c, []))

/-- `per_cat[cat].append(...)` (src/pipeline.py line 62): `none` models the
`KeyError` raised when `cat` is not a key of `per_cat`. -/
def perCatAppend : List (String × List Clause) → String → Clause →
    Option (List (String × List Clause))
  | [], _, _ => none
  | p :: rest, cat, cl =>
    if p.1 = cat then some ((p.1, p.2 ++ [cl]) :: rest)
    else (perCatAppend rest cat cl).map (fun m => p :: m)

/-- Assignment `d[k] = v` on a Python dict in insertion order: replace the
value in place if the key exists, append otherwise. -/
def dictInsert : List (String × Clause) → String → Clause → List (String × Clause)
  | [], k, v => [(k, v)]
  | p :: rest, k, v =>
    if p.1 = k then (k, v) :: rest else p :: dictInsert rest k v

/-- Loop of the dict comprehension `{item['text']: item for item in items}`. -/
def ddGo (m : List (String × Clause)) : List Clause → List (String × Clause)
  | [] => m
  | it :: rest => ddGo (dictInsert m it.text it) rest

/-- `list({item['text']: item for item in items}.values())`
(src/pipeline.py lines 72 and 84): one entry per distinct text, at the
position of the first occurrence, holding the record of the last
occurrence. -/
def dictDedup (items : List Clause) : List Clause :=
  (ddGo [] items).map (fun p => p.2)

/-- Insertion into a list sorted by descending score, after all elements
with a greater-or-equal score (stability). -/
def insDesc (x : Clause) : List Clause → List Clause
  | [] => [x]
  | y :: rest => if y.score ≤ x.score then x :: y :: rest else y :: insDesc x rest

/-- `sorted(items, key=lambda x: -x["score"])` (src/pipeline.py line 70):
Python's stable descending sort by score, realised as a stable insertion
sort (extensionally equal to any stable sort for this key). -/
def sortDesc : List Clause → List Clause
  | [] => []
  | x :: rest => insDesc x (sortDesc rest)

/-- Lines 70-73 of src/pipeline.py: sort by descending score, deduplicate
by text, truncate to `min(7, len(unique_clauses))`. -/
def selectTop (items : List Clause) : List Clause :=
  (dictDedup (sortDesc items)).take (min 7 (dictDedup (sortDesc items)).length)

/-- `max(risks, key=lambda r: weight[r])` over a non-empty list of band
labels (src/pipeline.py line 78): Python's max keeps the first maximal
element; folding from the extra initial value "Low" is extensionally the
same because ties keep the current value. -/
def maxRisk (l : List String) : String :=
  l.foldl (fun best r => if riskWeight best < riskWeight r then r else best) "Low"

/-- `" ".join(texts)`. -/
def joinSpace (l : List String) : String := String.intercalate " " l

/-! ## Summarization adapter (pipeline.py lines 14-42) -/

/-- `_safe_summarize` (src/pipeline.py lines 14-22).  The external
summarizer is the function argument `summ`; `none` models an exception in
the collaborator call, `some none` a missing or None `summary_text`,
`some (some t)` a returned summary text. -/
def safe_summarize (summ : String → Nat → Nat → Option (Option String))
    (prompt : String) (maxLen minLen : Nat) : String :=
  match summ prompt maxLen minLen with
  | none => "An error occurred during AI summarization."
  | some none => "AI summary could not be generated for this section."
  | some (some t) =>
    if t.isEmpty then "AI summary could not be generated for this section."
    else String.mk (trimL t.data)

/-- `summarize_text_for_risk` (src/pipeline.py lines 24-30). -/
def summarize_text_for_risk (summ : String → Nat → Nat → Option (Option String))
    (category text : String) : String :=
  let t := String.mk (trimL text.data)
  if t.length < 50 then
    "This section on " ++ strLower category ++
      " may contain important clauses but is too short to summarize."
  else
    safe_summarize summ
      ("Summarize how the following clauses about " ++ category ++
        " could impact user rights, privacy, or finances:\n\n" ++
        String.mk (t.data.take 3000)) 120 30

/-- `create_global_summary` (src/pipeline.py lines 32-42). -/
def create_global_summary (summ : String → Nat → Nat → Option (Option String))
    (text : String) : String :=
  let t := String.mk (trimL text.data)
  if t.length < 50 then
    "The document contains several clauses of interest but is too short for a global summary."
  else
    safe_summarize summ
      ("Create a high-level, executive summary of the most important takeaways from this document. " ++
        "Focus on the key permissions the user is granting and the most significant rights they have. " ++
        "Do not simply repeat the introductory sentences.\n\nText:\n" ++
        String.mk (t.data.take 3000)) 150 40

/-! ## process_document (pipeline.py lines 44-104) -/

/-- The Clause Record appended at src/pipeline.py lines 62-65 for a
sentence `s` with score `sc`, category triggers `trig` and location
`loc`. -/
def mkClause (s : String) (sc : Int) (trig : List String) (loc : String) : Clause :=
  ⟨s, band sc, trig, provenance_dict s loc, sc⟩

/-- The inner loop `for cat, triggers in matched_cats.items()`
(src/pipeline.py lines 61-65). -/
def addMatches (loc s : String) (sc : Int) :
    List (String × List Clause) → List (String × List String) →
    Option (List (String × List Clause))
  | pcx, [] => some pcx
  | pcx, m :: rest =>
    match perCatAppend pcx m.1 (mkClause s sc m.2 loc) with
    | none => none
    | some pc' => addMatches loc s sc pc' rest

/-- Lines 58-65 of src/pipeline.py for one sentence. -/
def processSentence (cfg : Config) (loc : String)
    (pcx : List (String × List Clause)) (s : String) :
    Option (List (String × List Clause)) :=
  if (tag_sentence_v17 s cfg.keywords).isEmpty then some pcx
  else addMatches loc s (risk_for_sentence_v17 s cfg.risk_scores).1 pcx
    (tag_sentence_v17 s cfg.keywords)

/-- The `for s in sents` loop (src/pipeline.py lines 57-65). -/
def processSentences (cfg : Config) (loc : String) :
    List (String × List Clause) → List String → Option (List (String × List Clause))
  | pcx, [] => some pcx
  | pcx, s :: rest =>
    match processSentence cfg loc pcx s with
    | none => none
    | some pc' => processSentences cfg loc pc' rest

/-- One iteration of the page loop (src/pipeline.py lines 53-65):
clean the page text, extend the accumulated full text, process the page's
sentences. -/
def processPage (cfg : Config) (acc : List (String × List Clause) × String)
    (pg : Nat × String) : Option (List (String × List Clause) × String) :=
  match processSentences cfg ("Page " ++ toString pg.1) acc.1
      (sentences (clean_text pg.2)) with
  | none => none
  | some pc' =>
    some (pc', acc.2 ++ "\n--- Page " ++ toString pg.1 ++ " ---\n" ++ clean_text pg.2)

/-- The `for page_num, page_text in text_pages.items()` loop. -/
def processPages (cfg : Config) :
    List (String × List Clause) × String → List (Nat × String) →
    Option (List (String × List Clause) × String)
  | acc, [] => some acc
  | acc, pg :: rest =>
    match processPage cfg acc pg with
    | none => none
    | some acc' => processPages cfg acc' rest

/-- The `for cat in categories` aggregation loop (src/pipeline.py lines
67-82), returning `categories_out` and `all_top_clauses`.  A category with
no tagged clauses is skipped (`if not items: continue`); `top_clauses` is
extended into `all_top_clauses` before the `if top_clauses:` guard, as in
the source. -/
def buildCategories (summ : String → Nat → Nat → Option (Option String))
    (pcx : List (String × List Clause)) :
    List String → List CategoryResult × List Clause
  | [] => ([], [])
  | cat :: rest =>
    if ((alookup pcx cat).getD []).isEmpty then buildCategories summ pcx rest
    else
      if (selectTop ((alookup pcx cat).getD [])).isEmpty then
        ((buildCategories summ pcx rest).1,
         selectTop ((alookup pcx cat).getD []) ++ (buildCategories summ pcx rest).2)
      else
        (⟨cat,
          summarize_text_for_risk summ cat
            (joinSpace ((selectTop ((alookup pcx cat).getD [])).map (fun c => c.text))),
          maxRisk ((selectTop ((alookup pcx cat).getD [])).map (fun c => c.risk)),
          selectTop ((alookup pcx cat).getD [])⟩ :: (buildCategories summ pcx rest).1,
         selectTop ((alookup pcx cat).getD []) ++ (buildCategories summ pcx rest).2)

/-- Lines 87-97 of src/pipeline.py: the weighted document score over the
distinct selected clauses. -/
def overallScore (uniq : List Clause) : ℚ :=
  if uniq.length > 0 then
    (if uniq.length * 3 > 0 then
      (((uniq.map (fun c => riskWeight c.risk)).sum : Int) : ℚ) /
        ((uniq.length * 3 : Nat) : ℚ) * 100
     else 0)
  else 0

/-- `process_document` (src/pipeline.py lines 44-104).  The external
summarization model is the explicit argument `summ`; the result is `none`
when the pipeline raises (the `KeyError` of `per_cat[cat]` on a matched
category that was not declared in `config["categories"]`). -/
def processDocument (summ : String → Nat → Nat → Option (Option String))
    (text_pages : List (Nat × String)) (cfg : Config) : Option DocumentResult :=
  match processPages cfg (perCatInit cfg.categories, "") text_pages with
  | none => none
  | some (pcx, fullText) =>
    some ⟨create_global_summary summ
            (joinSpace ((dictDedup (buildCategories summ pcx cfg.categories).2).map
              (fun c => c.text))),
          (buildCategories summ pcx cfg.categories).1,
          String.mk (trimL fullText.data),
          overallScore (dictDedup (buildCategories summ pcx cfg.categories).2)⟩

/-! ## Concrete inputs used by the per-claim counterexamples and witnesses -/

/-- A summarizer collaborator that always fails (its output only reaches
the fixed fallback strings, keeping evaluations deterministic). -/
def sumFail : String → Nat → Nat → Option (Option String) := fun _ _ _ => none

/-- C1 failing input: one page whose only sentence matches the keyword
category "Data Sharing", which is not declared in `categories`. -/
def cfgC1 : Config := ⟨[("Data Sharing", ["share"])], [], []⟩

/-- C3 counterexample input: the same sentence on pages 1 and 2. -/
def pagesC3 : List (Nat × String) :=
  [(1, "You may terminate this agreement."), (2, "You may terminate this agreement.")]

/-- C3 counterexample configuration. -/
def cfgC3 : Config := ⟨[("Termination", ["terminat"])], ["Termination"], []⟩

/-- Two clause records with the same text but different locations, the
second-page one. -/
def clDupA : Clause :=
  ⟨"You may terminate this agreement.", "Low", ["terminat"],
   [("snippet", "You may terminate this agreement."), ("location", "Page 1")], 0⟩

/-- See `clDupA`: the later record with the same text. -/
def clDupB : Clause :=
  ⟨"You may terminate this agreement.", "Low", ["terminat"],
   [("snippet", "You may terminate this agreement."), ("location", "Page 2")], 0⟩

/-- C4 counterexample configuration: one declared category, empty pages. -/
def cfgC4 : Config := ⟨[("Data Sharing", ["share"])], ["Data Sharing"], []⟩

/-- C4 witness configuration: two declared categories, only one of which
ever matches. -/
def cfgC4w : Config :=
  ⟨[("Termination", ["terminat"])], ["Termination", "User Rights"], []⟩

/-- C4 witness pages. -/
def pagesC4w : List (Nat × String) := [(1, "You may terminate this agreement.")]

/-- The clause record produced for the C4 witness page. -/
def clC4w : Clause :=
  ⟨"You may terminate this agreement.", "Low", ["terminat"],
   [("snippet", "You may terminate this agreement."), ("location", "Page 1")], 0⟩

/-- The per-category state and accumulated text after the C4 witness
pages. -/
def pcrC4w : List (String × List Clause) × String :=
  ([("Termination", [clC4w]), ("User Rights", [])],
   "\n--- Page 1 ---\nYou may terminate this agreement.")

/-- The document result for the C4 witness input. -/
def resC4w : DocumentResult :=
  ⟨"The document contains several clauses of interest but is too short for a global summary.",
   [⟨"Termination",
     "This section on termination may contain important clauses but is too short to summarize.",
     "Low", [clC4w]⟩],
   "--- Page 1 ---\nYou may terminate this agreement.",
   overallScore [clC4w]⟩

/-- C5 witness pages. -/
def pagesC5 : List (Nat × String) := [(1, "You may terminate it.")]

/-- C5 witness configuration: the matching sentence scores 2 points. -/
def cfgC5 : Config := ⟨[("Termination", ["terminat"])], ["Termination"], [("terminat", 2)]⟩

/-- The clause record produced for the C5 witness page. -/
def clC5 : Clause :=
  ⟨"You may terminate it.", "Low", ["terminat"],
   [("snippet", "You may terminate it."), ("location", "Page 1")], 2⟩

/-- The per-category state and accumulated text after the C5 witness
pages. -/
def pcrC5 : List (String × List Clause) × String :=
  ([("Termination", [clC5])], "\n--- Page 1 ---\nYou may terminate it.")

/-- The document result for the C5 witness input: one Low clause, so the
overall score is 100/3. -/
def resC5 : DocumentResult :=
  ⟨"The document contains several clauses of interest but is too short for a global summary.",
   [⟨"Termination",
     "This section on termination may contain important clauses but is too short to summarize.",
     "Low", [clC5]⟩],
   "--- Page 1 ---\nYou may terminate it.",
   overallScore [clC5]⟩

/-- C9 witness pages. -/
def pagesC9 : List (Nat × String) := [(1, "You must not share it.")]

/-- C9 witness configuration. -/
def cfgC9 : Config := ⟨[("Data Sharing", ["share"])], ["Data Sharing"], [("share", 1)]⟩

/-- The clause record produced for the C9 witness page. -/
def clC9 : Clause :=
  ⟨"You must not share it.", "Low", ["share"],
   [("snippet", "You must not share it."), ("location", "Page 1")], 1⟩

/-- The document result for the C9 witness input. -/
def resC9 : DocumentResult :=
  ⟨"The document contains several clauses of interest but is too short for a global summary.",
   [⟨"Data Sharing",
     "This section on data sharing may contain important clauses but is too short to summarize.",
     "Low", [clC9]⟩],
   "--- Page 1 ---\nYou must not share it.",
   overallScore [clC9]⟩

/-- C10 witness pages. -/
def pagesC10 : List (Nat × String) := [(1, "You may cancel anytime.")]

/-- C10 witness configuration. -/
def cfgC10 : Config := ⟨[("Termination", ["cancel"])], ["Termination"], []⟩

/-- The clause record produced for the C10 witness page. -/
def clC10 : Clause :=
  ⟨"You may cancel anytime.", "Low", ["cancel"],
   [("snippet", "You may cancel anytime."), ("location", "Page 1")], 0⟩

/-- The category result for the C10 witness input. -/
def crC10 : CategoryResult :=
  ⟨"Termination",
   "This section on termination may contain important clauses but is too short to summarize.",
   "Low", [clC10]⟩

/-- The document result for the C10 witness input. -/
def resC10 : DocumentResult :=
  ⟨"The document contains several clauses of interest but is too short for a global summary.",
   [crC10],
   "--- Page 1 ---\nYou may cancel anytime.",
   overallScore [clC10]⟩

/-- Clause records of the per-category map all carry a provenance built by
`provenance_dict` from their own text and one of the locations in
`locs`. -/
def ClausesGood (locs : List String) (pcx : List (String × List Clause)) : Prop :=
  ∀ e ∈ pcx, ∀ c ∈ e.2, ∃ l ∈ locs, c.provenance = [("snippet", c.text), ("location", l)]

/-! ## Normalizer stage lemmas -/

theorem dehyph_of_not_nl : ∀ l : List Char, '\n' ∉ l → dehyph l = l
  | [], _ => rfl
  | [_], _ => rfl
  | a :: b :: rest, h => by
    have hb : (b == '\n') = false := by
      simp only [beq_eq_false_iff_ne, ne_eq]
      intro hb
      exact h (by simp [hb])
    have ih := dehyph_of_not_nl (b :: rest) (fun hm => h (List.mem_cons_of_mem a hm))
    rw [dehyph, hb]
    simp [ih]

theorem sbGo_of_not_nl : ∀ (l : List Char) (p : Bool), '\n' ∉ l → sbGo p l = l
  | [], _, _ => rfl
  | c :: rest, p, h => by
    have hc : (c == '\n') = false := by
      simp only [beq_eq_false_iff_ne, ne_eq]
      intro hc
      exact h (by simp [hc])
    have ih := sbGo_of_not_nl rest false (fun hm => h (List.mem_cons_of_mem c hm))
    simp [sbGo, hc, ih]

theorem rc_of_keep : ∀ l : List Char, (∀ c ∈ l, rcKeep c = true) → rc l = l
  | [], _ => rfl
  | c :: rest, h => by
    have hc := h c (by simp)
    have ih := rc_of_keep rest (fun d hd => h d (by simp [hd]))
    simp only [rc, List.filter_cons, hc, if_true]
    simpa [rc] using ih

theorem cwGo_false_of_noRun : ∀ l : List Char, noRunB l = true → cwGo false l = l
  | [], _ => rfl
  | c :: rest, h => by
    have h1 : (!(isWsB c && headIsWs rest)) = true ∧ noRunB rest = true := by
      simpa [noRunB, Bool.and_eq_true] using h
    have ih := cwGo_false_of_noRun rest h1.2
    cases hc : isWsB c with
    | true =>
      have hw : headIsWs rest = false := by
        rcases h1 with ⟨hnr, -⟩
        cases hrw : headIsWs rest
        · rfl
        · rw [hc, hrw] at hnr
          simp at hnr
      simp [cwGo, hc, hw, ih]
    | false => simp [cwGo, hc, ih]

theorem dropWhile_of_head : ∀ l : List Char, headIsWs l = false → l.dropWhile isWsB = l
  | [], _ => rfl
  | c :: rest, h => by
    have hc : isWsB c = false := by simpa [headIsWs] using h
    simp [List.dropWhile_cons, hc]

theorem trimR_of_last : ∀ l : List Char, lastIsWs l = false → trimR l = l
  | [], _ => rfl
  | [c], h => by
    have hc : isWsB c = false := by simpa [lastIsWs] using h
    simp [trimR, hc]
  | a :: b :: rest, h => by
    have ih := trimR_of_last (b :: rest) (by simpa [lastIsWs] using h)
    rw [trimR, ih]

theorem sbGo_head_nl : ∀ rest : List Char, headIsNl rest = true → headIsNl (sbGo true rest) = true := by
  intro rest h
  cases rest with
  | nil => simp [headIsNl] at h
  | cons c r =>
    have hc : (c == '\n') = true := by simpa [headIsNl] using h
    simp [sbGo, hc, headIsNl]

theorem sbGo_nlOk : ∀ (l : List Char) (p q : Bool), (q = true → p = true) →
    (p = true → headIsNl l = true → q = true) → nlOkP q (sbGo p l) = true
  | [], _, _, _, _ => rfl
  | c :: rest, p, q, hqp, hpq => by
    cases hc : c == '\n' with
    | false =>
      have ih := sbGo_nlOk rest false false (fun h => h) (by intro h; simp at h)
      simp [sbGo, hc, nlOkP, ih]
    | true =>
      cases hkeep : (p || headIsNl rest) with
      | true =>
        have hfirst : (q || headIsNl (sbGo true rest)) = true := by
          cases hp : p with
          | true =>
            have hq : q = true := hpq hp (by simp [headIsNl, hc])
            simp [hq]
          | false =>
            have hnext : headIsNl rest = true := by simpa [hp] using hkeep
            simp [sbGo_head_nl rest hnext]
        have ih := sbGo_nlOk rest true true (fun h => h) (fun _ _ => rfl)
        simp [sbGo, hc, hkeep, nlOkP, hfirst, ih]
      | false =>
        have hnext : headIsNl rest = false := by
          cases hn : headIsNl rest
          · rfl
          · rw [hn] at hkeep
            simp at hkeep
        have ih := sbGo_nlOk rest true false (by intro h; simp at h)
          (by intro _ hn; rw [hnext] at hn; simp at hn)
        simp [sbGo, hc, hkeep, nlOkP, ih]

theorem rc_head_nl : ∀ l : List Char, headIsNl l = true → headIsNl (rc l) = true := by
  intro l h
  cases l with
  | nil => simp [headIsNl] at h
  | cons c r =>
    have hc : (c == '\n') = true := by simpa [headIsNl] using h
    have hceq : c = '\n' := by simpa using hc
    have hk : rcKeep c = true := by rw [hceq]; decide
    simp [rc, List.filter_cons, hk, headIsNl, hc]

theorem rc_nlOk : ∀ (l : List Char) (p q : Bool), (p = true → q = true) →
    nlOkP p l = true → nlOkP q (rc l) = true
  | [], _, _, _, _ => rfl
  | c :: rest, p, q, hpq, h => by
    have h1 : (!(c == '\n') || p || headIsNl rest) = true ∧ nlOkP (c == '\n') rest = true := by
      simpa [nlOkP, Bool.and_eq_true] using h
    cases hk : rcKeep c with
    | false =>
      have hc : (c == '\n') = false := by
        cases hcc : c == '\n'
        · rfl
        · have hceq : c = '\n' := by simpa using hcc
          rw [hceq] at hk
          simp [rcKeep, isCtrlRm] at hk
      have ih := rc_nlOk rest false q (by intro hx; simp at hx) (by rw [hc] at h1; exact h1.2)
      simpa [rc, List.filter_cons, hk] using ih
    | true =>
      have ih := rc_nlOk rest (c == '\n') (c == '\n') (fun hx => hx) h1.2
      have hfirst : (!(c == '\n') || q || headIsNl (rc rest)) = true := by
        cases hc : c == '\n' with
        | false => simp
        | true =>
          rcases h1 with ⟨ho, -⟩
          rw [hc] at ho
          simp only [Bool.not_true, Bool.false_or] at ho
          rcases Bool.or_eq_true_iff.mp ho with hp | hn
          · simp [hpq hp]
          · simp [rc_head_nl rest hn]
      simp only [rc, List.filter_cons, hk, if_true, nlOkP, Bool.and_eq_true]
      exact ⟨hfirst, by simpa [rc] using ih⟩

theorem headNl_headWs : ∀ l : List Char, headIsNl l = true → headIsWs l = true := by
  intro l h
  cases l with
  | nil => simp [headIsNl] at h
  | cons c r =>
    have hceq : c = '\n' := by simpa [headIsNl] using h
    subst hceq
    simp [headIsWs]
    decide

theorem cwGo_not_nl : ∀ (l : List Char) (p b : Bool), (p = true → b = true) →
    nlOkP p l = true → '\n' ∉ cwGo b l
  | [], _, _, _, _ => by simp [cwGo]
  | c :: rest, p, b, hpb, h => by
    have h1 : (!(c == '\n') || p || headIsNl rest) = true ∧ nlOkP (c == '\n') rest = true := by
      simpa [nlOkP, Bool.and_eq_true] using h
    cases hw : isWsB c with
    | false =>
      have hc : (c == '\n') = false := by
        cases hcc : c == '\n'
        · rfl
        · have hceq : c = '\n' := by simpa using hcc
          rw [hceq] at hw
          simp [isWsB] at hw
      have ih := cwGo_not_nl rest false false (fun hx => hx) (by rw [hc] at h1; exact h1.2)
      have hcne : ('\n' : Char) ≠ c := fun he => by rw [← he] at hc; simp at hc
      cases b <;> simp [cwGo, hw] <;> exact ⟨hcne, ih⟩
    | true =>
      cases b with
      | true =>
        have ih := cwGo_not_nl rest (c == '\n') true (fun _ => rfl) h1.2
        simpa [cwGo, hw] using ih
      | false =>
        cases hh : headIsWs rest with
        | true =>
          have ih := cwGo_not_nl rest (c == '\n') true (fun _ => rfl) h1.2
          simp [cwGo, hw, hh]
          exact ih
        | false =>
          have hp : p = false := by
            cases hpp : p
            · rfl
            · exact absurd (hpb hpp) (by simp)
          have hn : headIsNl rest = false := by
            cases hnn : headIsNl rest
            · rfl
            · rw [headNl_headWs rest hnn] at hh
              simp at hh
          have hc : (c == '\n') = false := by
            rcases h1 with ⟨ho, -⟩
            rw [hp, hn] at ho
            simpa using ho
          have ih := cwGo_not_nl rest false false (fun hx => hx) (by rw [hc] at h1; exact h1.2)
          have hcne : ('\n' : Char) ≠ c := fun he => by rw [← he] at hc; simp at hc
          simp [cwGo, hw, hh]
          exact ⟨fun he => hcne he, ih⟩

theorem cwGo_true_head : ∀ l : List Char, headIsWs (cwGo true l) = false
  | [] => rfl
  | c :: rest => by
    cases hw : isWsB c with
    | true => simpa [cwGo, hw] using cwGo_true_head rest
    | false => simp [cwGo, hw, headIsWs]

theorem cwGo_false_head : ∀ l : List Char, headIsWs (cwGo false l) = headIsWs l
  | [] => rfl
  | c :: rest => by
    cases hw : isWsB c with
    | true =>
      cases hh : headIsWs rest with
      | true =>
        have hred : cwGo false (c :: rest) = ' ' :: cwGo true rest := by
          rw [cwGo, hw, hh]
          simp
        rw [hred]
        show isWsB ' ' = isWsB c
        rw [hw]
        decide
      | false =>
        have hred : cwGo false (c :: rest) = c :: cwGo false rest := by
          rw [cwGo, hw, hh]
          simp
        rw [hred]
        rfl
    | false =>
      have hred : cwGo false (c :: rest) = c :: cwGo false rest := by
        rw [cwGo, hw]
        simp
      rw [hred]
      rfl

theorem cwGo_noRun : ∀ (l : List Char) (b : Bool), noRunB (cwGo b l) = true
  | [], _ => by cases ‹Bool› <;> rfl
  | c :: rest, b => by
    cases hw : isWsB c with
    | false =>
      have ih := cwGo_noRun rest false
      have hh : headIsWs (cwGo false rest) = headIsWs rest := cwGo_false_head rest
      cases b <;> simp [cwGo, hw, noRunB, ih]
    | true =>
      cases b with
      | true => simpa [cwGo, hw] using cwGo_noRun rest true
      | false =>
        cases hh : headIsWs rest with
        | true =>
          have ih := cwGo_noRun rest true
          simp [cwGo, hw, hh, noRunB, ih, cwGo_true_head rest]
        | false =>
          have ih := cwGo_noRun rest false
          simp [cwGo, hw, hh, noRunB, ih, cwGo_false_head rest]

theorem cwGo_mem : ∀ (l : List Char) (b : Bool) (c : Char), c ∈ cwGo b l → c ∈ l ∨ c = ' '
  | [], b, c => by simp [cwGo]
  | d :: rest, b, c => by
    intro h
    cases hw : isWsB d with
    | false =>
      rw [cwGo, hw] at h
      simp only [Bool.false_eq_true, if_false] at h
      rcases List.mem_cons.mp h with he | hm
      · exact Or.inl (by simp [he])
      · rcases cwGo_mem rest false c hm with hm' | hsp
        · exact Or.inl (List.mem_cons_of_mem d hm')
        · exact Or.inr hsp
    | true =>
      cases b with
      | true =>
        rw [cwGo, hw] at h
        simp only [if_true] at h
        rcases cwGo_mem rest true c h with hm' | hsp
        · exact Or.inl (List.mem_cons_of_mem d hm')
        · exact Or.inr hsp
      | false =>
        cases hh : headIsWs rest with
        | true =>
          rw [cwGo, hw, hh] at h
          simp only [if_true] at h
          rcases List.mem_cons.mp h with he | hm
          · exact Or.inr he
          · rcases cwGo_mem rest true c hm with hm' | hsp
            · exact Or.inl (List.mem_cons_of_mem d hm')
            · exact Or.inr hsp
        | false =>
          rw [cwGo, hw, hh] at h
          simp only [Bool.false_eq_true, if_false, if_true] at h
          rcases List.mem_cons.mp h with he | hm
          · exact Or.inl (by simp [he])
          · rcases cwGo_mem rest false c hm with hm' | hsp
            · exact Or.inl (List.mem_cons_of_mem d hm')
            · exact Or.inr hsp

theorem dropWhile_mem : ∀ (l : List Char) (c : Char), c ∈ l.dropWhile isWsB → c ∈ l
  | [], _ => by simp
  | d :: rest, c => by
    intro h
    rw [List.dropWhile_cons] at h
    by_cases hw : isWsB d = true
    · rw [if_pos hw] at h
      exact List.mem_cons_of_mem d (dropWhile_mem rest c h)
    · rw [if_neg hw] at h
      exact h

theorem trimR_mem : ∀ (l : List Char) (c : Char), c ∈ trimR l → c ∈ l
  | [], _ => by simp [trimR]
  | a :: rest, c => by
    intro h
    rw [trimR] at h
    cases htr : trimR rest with
    | nil =>
      rw [htr] at h
      by_cases hw : isWsB a = true
      · rw [if_pos hw] at h
        simp at h
      · rw [if_neg hw] at h
        simp at h
        simp [h]
    | cons x xs =>
      rw [htr] at h
      rcases List.mem_cons.mp h with he | hm
      · simp [he]
      · exact List.mem_cons_of_mem a (trimR_mem rest c (htr ▸ hm))

theorem noRun_dropWhile : ∀ l : List Char, noRunB l = true → noRunB (l.dropWhile isWsB) = true
  | [], _ => rfl
  | a :: rest, h => by
    have h2 : noRunB rest = true := by
      rw [noRunB, Bool.and_eq_true] at h
      exact h.2
    rw [List.dropWhile_cons]
    by_cases hw : isWsB a = true
    · rw [if_pos hw]
      exact noRun_dropWhile rest h2
    · rw [if_neg hw]
      exact h

theorem trimR_head : ∀ (l : List Char) (x : Char) (xs : List Char),
    trimR l = x :: xs → l.head? = some x
  | [], x, xs => by simp [trimR]
  | a :: rest, x, xs => by
    intro h
    rw [trimR] at h
    cases htr : trimR rest with
    | nil =>
      rw [htr] at h
      by_cases hw : isWsB a = true
      · rw [if_pos hw] at h
        exact absurd h (by simp)
      · rw [if_neg hw] at h
        simp at h
        simp [h.1]
    | cons y ys =>
      rw [htr] at h
      simp at h
      simp [h.1]

theorem noRun_trimR : ∀ l : List Char, noRunB l = true → noRunB (trimR l) = true
  | [], _ => rfl
  | a :: rest, h => by
    have hparts : (!(isWsB a && headIsWs rest)) = true ∧ noRunB rest = true := by
      simpa [noRunB, Bool.and_eq_true] using h
    rw [trimR]
    cases htr : trimR rest with
    | nil =>
      by_cases hw : isWsB a = true
      · rw [if_pos hw]
        rfl
      · rw [if_neg hw]
        simp [noRunB, headIsWs]
    | cons x xs =>
      have ihm : noRunB (x :: xs) = true := htr ▸ noRun_trimR rest hparts.2
      have hfirst : (isWsB a && isWsB x) = false := by
        cases hwa : isWsB a with
        | false => rfl
        | true =>
          have hrest : headIsWs rest = false := by
            rcases hparts with ⟨hnr, -⟩
            cases hrw : headIsWs rest
            · rfl
            · rw [hwa, hrw] at hnr
              simp at hnr
          have hx : rest.head? = some x := trimR_head rest x xs htr
          cases rest with
          | nil => simp at hx
          | cons r rs =>
            simp at hx
            rw [hx] at hrest
            simp [headIsWs] at hrest
            simp [hrest]
      rw [noRunB]
      rw [show (isWsB a && headIsWs (x :: xs)) = false from hfirst]
      simp [ihm]

theorem trimR_last : ∀ l : List Char, lastIsWs (trimR l) = false
  | [] => rfl
  | a :: rest => by
    rw [trimR]
    cases htr : trimR rest with
    | nil =>
      by_cases hw : isWsB a = true
      · rw [if_pos hw]
        rfl
      · rw [if_neg hw]
        simp at hw
        simp [lastIsWs, hw]
    | cons x xs =>
      have ih : lastIsWs (x :: xs) = false := htr ▸ trimR_last rest
      simpa [lastIsWs] using ih

theorem dropWhile_headWs : ∀ l : List Char, headIsWs (l.dropWhile isWsB) = false
  | [] => rfl
  | a :: rest => by
    rw [List.dropWhile_cons]
    by_cases hw : isWsB a = true
    · rw [if_pos hw]
      exact dropWhile_headWs rest
    · rw [if_neg hw]
      simp at hw
      simp [headIsWs, hw]

/-! ## Claim C8: idempotence of the text normalizer -/

theorem cleanL_idem : ∀ l : List Char, cleanL (cleanL l) = cleanL l := by
  intro l
  have hsb : nlOkP false (sbGo false (dehyph l)) = true :=
    sbGo_nlOk (dehyph l) false false (fun h => h) (by intro h; simp at h)
  have hrc : nlOkP false (rc (sbGo false (dehyph l))) = true :=
    rc_nlOk (sbGo false (dehyph l)) false false (fun h => h) hsb
  have hnl_w : '\n' ∉ cwGo false (rc (sbGo false (dehyph l))) :=
    cwGo_not_nl (rc (sbGo false (dehyph l))) false false (fun h => h) hrc
  have hmem_yw : ∀ c, c ∈ cleanL l → c ∈ cwGo false (rc (sbGo false (dehyph l))) := by
    intro c hc
    exact dropWhile_mem _ c (trimR_mem _ c hc)
  have hnl_y : '\n' ∉ cleanL l := fun hm => hnl_w (hmem_yw '\n' hm)
  have hkeep_y : ∀ c ∈ cleanL l, rcKeep c = true := by
    intro c hc
    rcases cwGo_mem _ false c (hmem_yw c hc) with h | h
    · exact List.of_mem_filter h
    · rw [h]
      decide
  have hnorun_y : noRunB (cleanL l) = true :=
    noRun_trimR _ (noRun_dropWhile _ (cwGo_noRun _ false))
  have hhead_y : headIsWs (cleanL l) = false := by
    unfold cleanL trimL
    cases htr : trimR ((cwGo false (rc (sbGo false (dehyph l)))).dropWhile isWsB) with
    | nil => rfl
    | cons x xs =>
      have hx := trimR_head _ x xs htr
      have hdw := dropWhile_headWs (cwGo false (rc (sbGo false (dehyph l))))
      cases hdl : (cwGo false (rc (sbGo false (dehyph l)))).dropWhile isWsB with
      | nil =>
        rw [hdl] at hx
        simp at hx
      | cons d ds =>
        rw [hdl] at hx hdw
        simp at hx
        rw [hx] at hdw
        simp [headIsWs] at hdw
        simp [headIsWs, hdw]
  have hlast_y : lastIsWs (cleanL l) = false := trimR_last _
  show cleanL (cleanL l) = cleanL l
  rw [cleanL, dehyph_of_not_nl _ hnl_y, sbGo_of_not_nl _ false hnl_y,
    rc_of_keep _ hkeep_y, cwGo_false_of_noRun _ hnorun_y, trimL,
    dropWhile_of_head _ hhead_y, trimR_of_last _ hlast_y]

/-- C8: text normalization is idempotent — `clean_text (clean_text x) =
clean_text x` for every input string.  (`clean_text` is modelled from §4.1
of the spec, since `pipeline.py` imports it from `utils` but the shipped
`src/utils.py` does not define it.) -/
theorem C8_clean_text_idempotent : ∀ x : String, clean_text (clean_text x) = clean_text x := by
  intro x
  show String.mk (cleanL (String.mk (cleanL x.data)).data) = String.mk (cleanL x.data)
  have hdata : (String.mk (cleanL x.data)).data = cleanL x.data := rfl
  rw [hdata, cleanL_idem]

/-! ## Claim C6: band thresholds and monotonicity -/

/-- C6: `band` maps scores ≥ 6 to "High", scores in [3,6) to "Medium" and
scores < 3 to "Low", and is monotone in the score under the ordering
Low < Medium < High (ranked by `riskWeight`). -/
theorem C6_band_thresholds :
    (∀ s : Int,
      (6 ≤ s → band s = "High") ∧
      (3 ≤ s ∧ s < 6 → band s = "Medium") ∧
      (s < 3 → band s = "Low")) ∧
    (∀ s t : Int, s ≤ t → riskWeight (band s) ≤ riskWeight (band t)) := by
  have hb : ∀ u : Int,
      riskWeight (band u) = if 6 ≤ u then 3 else if 3 ≤ u then 2 else 1 := by
    intro u
    unfold band
    split_ifs <;> rfl
  constructor
  · intro s
    refine ⟨fun h => ?_, fun h => ?_, fun h => ?_⟩ <;>
      unfold band <;> split_ifs <;> first | rfl | (exfalso; omega)
  · intro s t hst
    rw [hb, hb]
    split_ifs <;> omega

/-- Witness for C6 at concrete scores 7, 4 and 1. -/
theorem C6_band_witness :
    band 7 = "High" ∧ band 4 = "Medium" ∧ band 1 = "Low" ∧
    riskWeight (band 1) ≤ riskWeight (band 7) :=
  ⟨(C6_band_thresholds.1 7).1 (by decide),
   (C6_band_thresholds.1 4).2.1 ⟨by decide, by decide⟩,
   (C6_band_thresholds.1 1).2.2 (by decide),
   C6_band_thresholds.2 1 7 (by decide)⟩

/-! ## Claim C7: the shipped risk scorer is not case-insensitive in the keys -/

/-- C7 counterexample: the table key "Share" matches the sentence
"we Share data" case-insensitively, yet `risk_for_sentence` scores 0 with
no triggers, because the source only lowercases the sentence
(`if kw in s`), never the key. -/
theorem C7_cex :
    risk_for_sentence "we Share data" [("Share", 5)] = (0, []) ∧
    strContains (strLower "we Share data") (strLower "Share") = true ∧
    risk_for_sentence "we Share data" [("Share", 5)] ≠ (5, ["Share"]) := by
  decide

/-- C7 amended: `risk_for_sentence` returns the sum of the point values of
every table key that is a verbatim substring of the lowercased sentence
(equivalent to case-insensitive matching only when the key is lowercase,
as all shipped `RISK_SCORES` keys are), with exactly those keys, in table
order, as triggers. -/
theorem C7_amended_scorer :
    ∀ (sentence : String) (table : List (String × Int)),
      risk_for_sentence sentence table =
        (((table.filter (fun p => strContains (strLower sentence) p.1)).map
            (fun p => p.2)).sum,
         (table.filter (fun p => strContains (strLower sentence) p.1)).map
            (fun p => p.1)) := by
  intro sentence table
  unfold risk_for_sentence
  induction table with
  | nil => rfl
  | cons p rest ih =>
    by_cases h : strContains (strLower sentence) p.1
    · simp [rfsGo, List.filter_cons, h, ih]
    · simp [rfsGo, List.filter_cons, h, ih]

/-! ## Claim C2: the shipped tagger returns a bare category list -/

/-- C2: evaluation of the shipped `utils.tag_sentence` at a sentence where
both keywords of the category match.  The code returns the bare list of
matched category names (no trigger keywords, and it breaks at the first
matching keyword), whereas `process_document` (src/pipeline.py line 61)
and the spec require the mapping produced by the spec-modelled
`tag_sentence_v17`. -/
theorem C2_code_eval :
    tag_sentence "we share data with third party"
        [("Data Sharing", ["share", "third party"])] = ["Data Sharing"] ∧
    tag_sentence_v17 "we share data with third party"
        [("Data Sharing", ["share", "third party"])] =
      [("Data Sharing", ["share", "third party"])] := by
  decide

/-! ## Claim C1: process_document is not total -/

/-- C1: evaluation of `process_document` at a page whose only sentence
matches the keyword category "Data Sharing" while `config["categories"]`
is empty: the subscript `per_cat["Data Sharing"]` has no key and the
pipeline raises `KeyError` (modelled by `none`) instead of returning a
`DocumentResult`. -/
theorem C1_keyerror_eval :
    processDocument sumFail [(1, "We share data.")] cfgC1 = none := by
  rfl

/-! ## Claim C3: the dedup keeps the last-seen record -/

/-- C3 counterexample: the same sentence on pages 1 and 2, both matching
"Termination".  The single retained bullet's `provenance.location` is
"Page 2" — the latest occurrence, not the earliest one required by the
claim. -/
theorem C3_cex :
    (processDocument sumFail pagesC3 cfgC3).map
        (fun r => r.categories.map (fun cr => cr.bullets.map
          (fun b => alookup b.provenance "location"))) = some [[some "Page 2"]] ∧
    pagesC3.map (fun p => p.1) = [1, 2] ∧ ("Page 2" : String) ≠ "Page 1" := by
  refine ⟨by rfl, by rfl, by decide⟩

theorem dictInsert_text_key : ∀ (m : List (String × Clause)) (k : String) (v : Clause),
    v.text = k → (∀ p ∈ m, p.2.text = p.1) → ∀ p ∈ dictInsert m k v, p.2.text = p.1
  | [], k, v, hv, _, p, hp => by
    simp [dictInsert] at hp
    rw [hp]
    exact hv
  | q :: rest, k, v, hv, hm, p, hp => by
    rw [dictInsert] at hp
    by_cases hq : q.1 = k
    · rw [if_pos hq] at hp
      rcases List.mem_cons.mp hp with he | hr
      · rw [he]
        exact hv
      · exact hm p (List.mem_cons_of_mem q hr)
    · rw [if_neg hq] at hp
      rcases List.mem_cons.mp hp with he | hr
      · rw [he]
        exact hm q (by simp)
      · exact dictInsert_text_key rest k v hv
          (fun p' hp' => hm p' (List.mem_cons_of_mem q hp')) p hr

theorem dictInsert_keys : ∀ (m : List (String × Clause)) (k : String) (v : Clause),
    (dictInsert m k v).map Prod.fst =
      if k ∈ m.map Prod.fst then m.map Prod.fst else m.map Prod.fst ++ [k]
  | [], k, v => by simp [dictInsert]
  | q :: rest, k, v => by
    rw [dictInsert]
    by_cases hq : q.1 = k
    · have hmem : k ∈ (q :: rest).map Prod.fst := by
        simp [List.map_cons, ← hq]
      rw [if_pos hq, if_pos hmem]
      simp [hq]
    · rw [if_neg hq]
      have hrec := dictInsert_keys rest k v
      by_cases hk : k ∈ rest.map Prod.fst
      · have hmem : k ∈ (q :: rest).map Prod.fst := by simp [hk]
        rw [if_pos hmem]
        simp [hrec, hk]
      · have hmem : k ∉ (q :: rest).map Prod.fst := by
          simp only [List.map_cons, List.mem_cons]
          push_neg
          exact ⟨fun he => hq he.symm, hk⟩
        rw [if_neg hmem]
        simp [hrec, hk]

theorem dictInsert_keys_nodup (m : List (String × Clause)) (k : String) (v : Clause)
    (hnd : (m.map Prod.fst).Nodup) : ((dictInsert m k v).map Prod.fst).Nodup := by
  rw [dictInsert_keys]
  by_cases hk : k ∈ m.map Prod.fst
  · rw [if_pos hk]
    exact hnd
  · rw [if_neg hk]
    simp [List.nodup_append, hnd, hk]

theorem dictInsert_mem_elim : ∀ (m : List (String × Clause)) (k : String) (v : Clause)
    (p : String × Clause), (m.map Prod.fst).Nodup → p ∈ dictInsert m k v →
    p = (k, v) ∨ (p ∈ m ∧ p.1 ≠ k)
  | [], k, v, p, _, hp => by
    simp [dictInsert] at hp
    exact Or.inl hp
  | q :: rest, k, v, p, hnd, hp => by
    have hnd1 : q.1 ∉ rest.map Prod.fst := by
      simp only [List.map_cons, List.nodup_cons] at hnd
      exact hnd.1
    have hnd2 : (rest.map Prod.fst).Nodup := by
      simp only [List.map_cons, List.nodup_cons] at hnd
      exact hnd.2
    rw [dictInsert] at hp
    by_cases hq : q.1 = k
    · rw [if_pos hq] at hp
      rcases List.mem_cons.mp hp with he | hr
      · exact Or.inl he
      · refine Or.inr ⟨List.mem_cons_of_mem q hr, fun hpk => ?_⟩
        exact hnd1 (by
          rw [hq, ← hpk]
          exact List.mem_map.mpr ⟨p, hr, rfl⟩)
    · rw [if_neg hq] at hp
      rcases List.mem_cons.mp hp with he | hr
      · exact Or.inr ⟨by simp [he], by rw [he]; exact hq⟩
      · rcases dictInsert_mem_elim rest k v p hnd2 hr with h1 | ⟨h2, h3⟩
        · exact Or.inl h1
        · exact Or.inr ⟨List.mem_cons_of_mem q h2, h3⟩

theorem getLast?_cons_of_ne {α : Type} (a : α) (l : List α) (h : l ≠ []) :
    (a :: l).getLast? = l.getLast? := by
  cases l with
  | nil => exact absurd rfl h
  | cons b t => simp [List.getLast?_cons_cons]

theorem ddGo_spec : ∀ (items : List Clause) (m : List (String × Clause)),
    (∀ p ∈ m, p.2.text = p.1) → (m.map Prod.fst).Nodup →
    ((ddGo m items).map Prod.fst =
        m.map Prod.fst ++ fdGo (m.map Prod.fst) (items.map (fun c => c.text))) ∧
    (∀ p ∈ ddGo m items, p.2.text = p.1 ∧
      ((items.filter (fun d => d.text == p.1)).getLast? = some p.2 ∨
       ((items.filter (fun d => d.text == p.1)) = [] ∧ p ∈ m)))
  | [], m, htext, hnd => by
    constructor
    · simp [ddGo, fdGo]
    · intro p hp
      exact ⟨htext p hp, Or.inr ⟨rfl, hp⟩⟩
  | it :: rest, m, htext, hnd => by
    have htext' := dictInsert_text_key m it.text it rfl htext
    have hnd' := dictInsert_keys_nodup m it.text it hnd
    have IH := ddGo_spec rest (dictInsert m it.text it) htext' hnd'
    have hstep : ddGo m (it :: rest) = ddGo (dictInsert m it.text it) rest := rfl
    constructor
    · rw [hstep, IH.1, dictInsert_keys]
      rw [show (it :: rest).map (fun c => c.text) = it.text :: rest.map (fun c => c.text)
        from rfl]
      rw [fdGo]
      by_cases hk : it.text ∈ m.map Prod.fst
      · rw [if_pos hk, if_pos hk]
      · rw [if_neg hk, if_neg hk]
        simp [List.append_assoc]
    · intro p hp
      rw [hstep] at hp
      have hIH := IH.2 p hp
      refine ⟨hIH.1, ?_⟩
      rcases hIH.2 with hlast | ⟨hempty, hmem⟩
      · left
        cases hf : it.text == p.1 with
        | true =>
          have hne : (rest.filter (fun d => d.text == p.1)) ≠ [] := by
            intro h0
            rw [h0] at hlast
            simp at hlast
          simp only [List.filter_cons, hf, if_true]
          rw [getLast?_cons_of_ne _ _ hne]
          exact hlast
        | false =>
          simp only [List.filter_cons, hf, Bool.false_eq_true, if_false]
          exact hlast
      · rcases dictInsert_mem_elim m it.text it p hnd hmem with he | ⟨hin, hne⟩
        · subst he
          left
          simp only [List.filter_cons, beq_self_eq_true, if_true]
          rw [show (rest.filter (fun d => d.text == it.text)) = [] from hempty]
          rfl
        · right
          have hf : (it.text == p.1) = false := by
            simp only [beq_eq_false_iff_ne, ne_eq]
            exact fun h => hne h.symm
          constructor
          · simp only [List.filter_cons, hf, Bool.false_eq_true, if_false]
            exact hempty
          · exact hin

theorem map_text_eq_keys : ∀ L : List (String × Clause),
    (∀ p ∈ L, p.2.text = p.1) → L.map (fun p => p.2.text) = L.map Prod.fst
  | [], _ => rfl
  | q :: rest, h => by
    rw [List.map_cons, List.map_cons, h q (by simp),
      map_text_eq_keys rest (fun p hp => h p (List.mem_cons_of_mem q hp))]

/-- C3 amended: the dict-comprehension dedup of src/pipeline.py line 72
keeps exactly one record per distinct text, positioned at its first-seen
occurrence (`firstDedup` of the texts), but the record retained for each
text — hence the bullet's `provenance.location` — is the one of the
LAST-seen occurrence, not the first. -/
theorem C3_amended_dedup : ∀ items : List Clause,
    (dictDedup items).map (fun c => c.text) = firstDedup (items.map (fun c => c.text)) ∧
    ∀ c ∈ dictDedup items,
      (items.filter (fun d => d.text == c.text)).getLast? = some c := by
  intro items
  have spec := ddGo_spec items [] (by simp) (by simp)
  constructor
  · have h1 : (dictDedup items).map (fun c => c.text) =
        (ddGo [] items).map (fun p => p.2.text) := by
      rw [dictDedup, List.map_map]
      rfl
    rw [h1, map_text_eq_keys _ (fun p hp => (spec.2 p hp).1), spec.1]
    rfl
  · intro c hc
    rw [dictDedup] at hc
    rcases List.mem_map.mp hc with ⟨p, hp, hpc⟩
    have h2 := spec.2 p hp
    rcases h2.2 with hlast | ⟨-, habs⟩
    · rw [← hpc, h2.1]
      exact hlast
    · exact absurd habs (by simp)

/-- Witness for the amended C3 at two concrete records sharing a text:
the later record `clDupB` is the one retained. -/
theorem C3_amended_witness :
    clDupB ∈ dictDedup [clDupA, clDupB] ∧
    ([clDupA, clDupB].filter (fun d => d.text == clDupB.text)).getLast? = some clDupB ∧
    (dictDedup [clDupA, clDupB]).map (fun c => c.text) =
      firstDedup ([clDupA, clDupB].map (fun c => c.text)) :=
  ⟨by decide, (C3_amended_dedup [clDupA, clDupB]).2 clDupB (by decide),
   (C3_amended_dedup [clDupA, clDupB]).1⟩

/-! ## Claim C4: empty declared categories are omitted, not emitted -/

/-- C4 counterexample: with empty pages and the declared category list
["Data Sharing"], the result's `categories` sequence is empty — the
declared category does NOT appear with empty bullets as the claim
states. -/
theorem C4_cex :
    (processDocument sumFail [] cfgC4).map (fun r => r.categories) = some [] ∧
    cfgC4.categories = ["Data Sharing"] ∧
    (processDocument sumFail [] cfgC4).map (fun r => r.raw_text) = some "" ∧
    (processDocument sumFail [] cfgC4).map (fun r => r.overall_risk_score) = some 0 := by
  refine ⟨by rfl, by rfl, by rfl, by rfl⟩

theorem insDesc_ne_nil (x : Clause) : ∀ l : List Clause, insDesc x l ≠ []
  | [] => by simp [insDesc]
  | y :: rest => by
    rw [insDesc]
    by_cases h : y.score ≤ x.score
    · rw [if_pos h]
      simp
    · rw [if_neg h]
      simp

theorem sortDesc_ne_nil : ∀ l : List Clause, l ≠ [] → sortDesc l ≠ []
  | [], h => absurd rfl h
  | x :: rest, _ => by
    rw [sortDesc]
    exact insDesc_ne_nil x (sortDesc rest)

theorem dictInsert_ne_nil (m : List (String × Clause)) (k : String) (v : Clause) :
    dictInsert m k v ≠ [] := by
  cases m with
  | nil => simp [dictInsert]
  | cons q rest =>
    rw [dictInsert]
    by_cases h : q.1 = k
    · rw [if_pos h]
      simp
    · rw [if_neg h]
      simp

theorem ddGo_ne_nil : ∀ (items : List Clause) (m : List (String × Clause)),
    m ≠ [] ∨ items ≠ [] → ddGo m items ≠ []
  | [], m, h => by
    rcases h with h | h
    · simpa [ddGo] using h
    · exact absurd rfl h
  | it :: rest, m, _ =>
    ddGo_ne_nil rest (dictInsert m it.text it) (Or.inl (dictInsert_ne_nil m it.text it))

theorem dictDedup_ne_nil (items : List Clause) (h : items ≠ []) : dictDedup items ≠ [] := by
  rw [dictDedup]
  simpa using ddGo_ne_nil items [] (Or.inr h)

theorem take_min7_ne_nil : ∀ l : List Clause, l ≠ [] → l.take (min 7 l.length) ≠ []
  | [], h => absurd rfl h
  | x :: rest, _ => by
    have hlen : (x :: rest).length = rest.length + 1 := rfl
    have h1 : 1 ≤ min 7 (x :: rest).length := by
      rw [hlen]
      omega
    obtain ⟨k, hk⟩ : ∃ k, min 7 (x :: rest).length = k + 1 :=
      ⟨min 7 (x :: rest).length - 1, by omega⟩
    rw [hk]
    simp [List.take]

theorem selectTop_ne_nil (items : List Clause) (h : items ≠ []) : selectTop items ≠ [] := by
  rw [selectTop]
  exact take_min7_ne_nil _ (dictDedup_ne_nil _ (sortDesc_ne_nil _ h))

theorem buildCategories_map_category :
    ∀ (cats : List String) (summ : String → Nat → Nat → Option (Option String))
      (pcx : List (String × List Clause)),
    ((buildCategories summ pcx cats).1).map (fun cr => cr.category) =
      cats.filter (fun c => !((alookup pcx c).getD []).isEmpty)
  | [], _, _ => rfl
  | cat :: rest, summ, pcx => by
    have IH := buildCategories_map_category rest summ pcx
    rw [buildCategories, List.filter_cons]
    by_cases hemp : ((alookup pcx cat).getD []).isEmpty = true
    · rw [if_pos hemp, hemp]
      simp only [Bool.not_true, Bool.false_eq_true, if_false]
      exact IH
    · have hempf : ((alookup pcx cat).getD []).isEmpty = false := by
        cases h : ((alookup pcx cat).getD []).isEmpty
        · rfl
        · exact absurd h hemp
      rw [if_neg hemp]
      have hne : (alookup pcx cat).getD [] ≠ [] := by
        intro h0
        rw [h0] at hempf
        simp at hempf
      have hsel := selectTop_ne_nil _ hne
      have hselb : ¬ (selectTop ((alookup pcx cat).getD [])).isEmpty = true := by
        cases hs : selectTop ((alookup pcx cat).getD []) with
        | nil => exact absurd hs hsel
        | cons a l => simp
      rw [if_neg hselb, hempf]
      simp only [Bool.not_false, if_true, List.map_cons]
      rw [IH]

/-- C4 amended: when the caller pre-declares the category list, the output
`categories` sequence holds exactly the declared categories that end with
at least one tagged clause, in caller-declared order; a declared category
with zero clauses is omitted entirely (`if not items: continue`), never
emitted with empty bullets. -/
theorem C4_amended_categories :
    ∀ (summ : String → Nat → Nat → Option (Option String))
      (pages : List (Nat × String)) (cfg : Config)
      (pcr : List (String × List Clause) × String),
    processPages cfg (perCatInit cfg.categories, "") pages = some pcr →
    ∀ res, processDocument summ pages cfg = some res →
    res.categories.map (fun cr => cr.category) =
      cfg.categories.filter (fun c => !((alookup pcr.1 c).getD []).isEmpty) := by
  intro summ pages cfg pcr hpp res hres
  obtain ⟨pcx, ft⟩ := pcr
  rw [processDocument, hpp] at hres
  have hc : res.categories = (buildCategories summ pcx cfg.categories).1 := by
    rw [← Option.some.injEq ..] at hres ⊢
    cases hres
    rfl
  rw [hc]
  exact buildCategories_map_category cfg.categories summ pcx

/-- Witness for the amended C4: of the two declared categories only
"Termination" matches, and it is the only one emitted. -/
theorem C4_amended_witness :
    processPages cfgC4w (perCatInit cfgC4w.categories, "") pagesC4w = some pcrC4w ∧
    processDocument sumFail pagesC4w cfgC4w = some resC4w ∧
    resC4w.categories.map (fun cr => cr.category) =
      cfgC4w.categories.filter (fun c => !((alookup pcrC4w.1 c).getD []).isEmpty) :=
  ⟨by rfl, by rfl,
   C4_amended_categories sumFail pagesC4w cfgC4w pcrC4w (by rfl) resC4w (by rfl)⟩

/-! ## Claims C5 and C9: the document risk rollup -/

theorem riskWeight_bounds (r : String) : 1 ≤ riskWeight r ∧ riskWeight r ≤ 3 := by
  rw [riskWeight]
  split_ifs <;> omega

theorem weights_sum_bounds : ∀ l : List Clause,
    (l.length : Int) ≤ (l.map (fun c => riskWeight c.risk)).sum ∧
    (l.map (fun c => riskWeight c.risk)).sum ≤ 3 * l.length
  | [] => by simp
  | c :: rest => by
    have IH := weights_sum_bounds rest
    have hw := riskWeight_bounds c.risk
    simp only [List.map_cons, List.sum_cons, List.length_cons]
    push_cast
    constructor
    · have := IH.1
      omega
    · have := IH.2
      omega

/-- C5: in every returned `DocumentResult`, `overall_risk_score` is 0 when
zero distinct clauses are selected document-wide, and otherwise equals
100 × (Σ weight(risk)) / (3 × number of distinct selected clauses) with
weight High = 3, Medium = 2, Low = 1; the divisor is nonzero whenever the
division is performed, and the score always lies in [0, 100]. -/
theorem C5_overall_formula :
    ∀ (summ : String → Nat → Nat → Option (Option String))
      (pages : List (Nat × String)) (cfg : Config) (res : DocumentResult)
      (pcr : List (String × List Clause) × String),
    processDocument summ pages cfg = some res →
    processPages cfg (perCatInit cfg.categories, "") pages = some pcr →
    ((dictDedup (buildCategories summ pcr.1 cfg.categories).2).length = 0 →
        res.overall_risk_score = 0) ∧
    (0 < (dictDedup (buildCategories summ pcr.1 cfg.categories).2).length →
        res.overall_risk_score =
          100 * ((((dictDedup (buildCategories summ pcr.1 cfg.categories).2).map
              (fun c => riskWeight c.risk)).sum : ℚ) /
            (3 * ((dictDedup (buildCategories summ pcr.1 cfg.categories).2).length : ℚ))) ∧
        (3 * ((dictDedup (buildCategories summ pcr.1 cfg.categories).2).length : ℚ)) ≠ 0) ∧
    0 ≤ res.overall_risk_score ∧ res.overall_risk_score ≤ 100 := by
  intro summ pages cfg res pcr hres hpp
  obtain ⟨pcx, ft⟩ := pcr
  dsimp only
  rw [processDocument, hpp] at hres
  have h := Option.some.inj hres
  subst h
  rcases weights_sum_bounds (dictDedup (buildCategories summ pcx cfg.categories).2) with
    ⟨hlow, hhigh⟩
  rcases Nat.eq_zero_or_pos (dictDedup (buildCategories summ pcx cfg.categories).2).length with
    hzero | hpos
  · refine ⟨fun _ => ?_, fun hp => absurd hp (by omega), ?_, ?_⟩
    all_goals
      rw [show DocumentResult.overall_risk_score _ =
          overallScore (dictDedup (buildCategories summ pcx cfg.categories).2) from rfl,
        overallScore, if_neg (by omega)]
    all_goals norm_num
  · have h3 : 0 < (dictDedup (buildCategories summ pcx cfg.categories).2).length * 3 := by
      omega
    have hb : (((dictDedup (buildCategories summ pcx cfg.categories).2).length * 3 : Nat) : ℚ)
        = 3 * ((dictDedup (buildCategories summ pcx cfg.categories).2).length : ℚ) := by
      push_cast
      ring
    have hn0 : (0 : ℚ) < ((dictDedup (buildCategories summ pcx cfg.categories).2).length : ℚ) := by
      exact_mod_cast hpos
    have hw0 : (0 : ℚ) ≤
        ((((dictDedup (buildCategories summ pcx cfg.categories).2).map
          (fun c => riskWeight c.risk)).sum : Int) : ℚ) := by
      have : (0 : Int) ≤ ((dictDedup (buildCategories summ pcx cfg.categories).2).map
          (fun c => riskWeight c.risk)).sum := by
        have hl : (0 : Int) ≤ ((dictDedup (buildCategories summ pcx cfg.categories).2).length : Int) := by
          omega
        exact le_trans hl hlow
      exact_mod_cast this
    have hwle : ((((dictDedup (buildCategories summ pcx cfg.categories).2).map
          (fun c => riskWeight c.risk)).sum : Int) : ℚ) ≤
        3 * ((dictDedup (buildCategories summ pcx cfg.categories).2).length : ℚ) := by
      exact_mod_cast hhigh
    have hscore : DocumentResult.overall_risk_score
        ⟨create_global_summary summ
            (joinSpace ((dictDedup (buildCategories summ pcx cfg.categories).2).map
              (fun c => c.text))),
          (buildCategories summ pcx cfg.categories).1,
          String.mk (trimL ft.data),
          overallScore (dictDedup (buildCategories summ pcx cfg.categories).2)⟩ =
        overallScore (dictDedup (buildCategories summ pcx cfg.categories).2) := rfl
    rw [hscore, overallScore, if_pos hpos, if_pos h3, hb]
    refine ⟨fun h0 => absurd h0 (by omega), fun _ => ⟨by ring, by positivity⟩, ?_, ?_⟩
    · have hd : (0 : ℚ) ≤
          ((((dictDedup (buildCategories summ pcx cfg.categories).2).map
            (fun c => riskWeight c.risk)).sum : Int) : ℚ) /
          (3 * ((dictDedup (buildCategories summ pcx cfg.categories).2).length : ℚ)) :=
        div_nonneg hw0 (by positivity)
      nlinarith [hd]
    · have hd1 : ((((dictDedup (buildCategories summ pcx cfg.categories).2).map
            (fun c => riskWeight c.risk)).sum : Int) : ℚ) /
          (3 * ((dictDedup (buildCategories summ pcx cfg.categories).2).length : ℚ)) ≤ 1 := by
        rw [div_le_one (by positivity)]
        exact hwle
      nlinarith [hd1]

/-- Witness for C5 at a one-clause document. -/
theorem C5_witness :
    processDocument sumFail pagesC5 cfgC5 = some resC5 ∧
    processPages cfgC5 (perCatInit cfgC5.categories, "") pagesC5 = some pcrC5 ∧
    (0 ≤ resC5.overall_risk_score ∧ resC5.overall_risk_score ≤ 100) :=
  ⟨by rfl, by rfl,
   (C5_overall_formula sumFail pagesC5 cfgC5 resC5 pcrC5 (by rfl) (by rfl)).2.2⟩

/-- C9: the overall risk score of every returned `DocumentResult` is
either exactly 0 (no distinct selected clause) or at least 100/3, because
every selected clause weighs at least 1 of a maximum 3; no result lies
strictly between 0 and 100/3. -/
theorem C9_overall_floor :
    ∀ (summ : String → Nat → Nat → Option (Option String))
      (pages : List (Nat × String)) (cfg : Config) (res : DocumentResult),
    processDocument summ pages cfg = some res →
    res.overall_risk_score = 0 ∨ (100 : ℚ) / 3 ≤ res.overall_risk_score := by
  intro summ pages cfg res hres
  rw [processDocument] at hres
  cases hpp : processPages cfg (perCatInit cfg.categories, "") pages with
  | none =>
    rw [hpp] at hres
    exact absurd hres (by simp)
  | some pcr =>
    obtain ⟨pcx, ft⟩ := pcr
    rw [hpp] at hres
    have h := Option.some.inj hres
    subst h
    rcases Nat.eq_zero_or_pos (dictDedup (buildCategories summ pcx cfg.categories).2).length with
      hzero | hpos
    · left
      rw [show DocumentResult.overall_risk_score _ =
          overallScore (dictDedup (buildCategories summ pcx cfg.categories).2) from rfl,
        overallScore, if_neg (by omega)]
    · right
      have hlow := (weights_sum_bounds (dictDedup (buildCategories summ pcx cfg.categories).2)).1
      have h3 : 0 < (dictDedup (buildCategories summ pcx cfg.categories).2).length * 3 := by
        omega
      have hb : (((dictDedup (buildCategories summ pcx cfg.categories).2).length * 3 : Nat) : ℚ)
          = 3 * ((dictDedup (buildCategories summ pcx cfg.categories).2).length : ℚ) := by
        push_cast
        ring
      have hn0 : (0 : ℚ) <
          ((dictDedup (buildCategories summ pcx cfg.categories).2).length : ℚ) := by
        exact_mod_cast hpos
      have hw : ((dictDedup (buildCategories summ pcx cfg.categories).2).length : ℚ) ≤
          ((((dictDedup (buildCategories summ pcx cfg.categories).2).map
            (fun c => riskWeight c.risk)).sum : Int) : ℚ) := by
        exact_mod_cast hlow
      rw [show DocumentResult.overall_risk_score _ =
          overallScore (dictDedup (buildCategories summ pcx cfg.categories).2) from rfl,
        overallScore, if_pos hpos, if_pos h3, hb]
      rw [div_mul_eq_mul_div, le_div_iff₀ (by positivity)]
      nlinarith [hw]

/-- Witness for C9 at a one-clause document whose score is exactly
100/3. -/
theorem C9_witness :
    processDocument sumFail pagesC9 cfgC9 = some resC9 ∧
    (resC9.overall_risk_score = 0 ∨ (100 : ℚ) / 3 ≤ resC9.overall_risk_score) :=
  ⟨by rfl, C9_overall_floor sumFail pagesC9 cfgC9 resC9 (by rfl)⟩

/-! ## Claim C10: provenance of every bullet -/

theorem perCatAppend_good : ∀ (pcx pc' : List (String × List Clause)) (cat : String)
    (cl : Clause), perCatAppend pcx cat cl = some pc' →
    ∀ e ∈ pc', ∀ c ∈ e.2, (∃ e' ∈ pcx, c ∈ e'.2) ∨ c = cl
  | [], pc', cat, cl, hpc => by simp [perCatAppend] at hpc
  | p :: rest, pc', cat, cl, hpc => by
    rw [perCatAppend] at hpc
    by_cases hq : p.1 = cat
    · rw [if_pos hq] at hpc
      have h := Option.some.inj hpc
      subst h
      intro e he c hc
      rcases List.mem_cons.mp he with he1 | he2
      · rw [he1] at hc
        rcases List.mem_append.mp hc with hc1 | hc2
        · exact Or.inl ⟨p, by simp, hc1⟩
        · exact Or.inr (by simpa using hc2)
      · exact Or.inl ⟨e, List.mem_cons_of_mem p he2, hc⟩
    · rw [if_neg hq] at hpc
      cases hrec : perCatAppend rest cat cl with
      | none =>
        rw [hrec] at hpc
        simp at hpc
      | some m =>
        rw [hrec] at hpc
        have h : p :: m = pc' := Option.some.inj hpc
        subst h
        intro e he c hc
        rcases List.mem_cons.mp he with he1 | he2
        · exact Or.inl ⟨p, by simp, he1 ▸ hc⟩
        · rcases perCatAppend_good rest m cat cl hrec e he2 c hc with ⟨e', he', hc'⟩ | hcl
          · exact Or.inl ⟨e', List.mem_cons_of_mem p he', hc'⟩
          · exact Or.inr hcl

theorem addMatches_good : ∀ (mc : List (String × List String))
    (pcx pc' : List (String × List Clause)) (loc s : String) (sc : Int)
    (locs : List String), addMatches loc s sc pcx mc = some pc' →
    ClausesGood locs pcx → loc ∈ locs → ClausesGood locs pc'
  | [], pcx, pc', loc, s, sc, locs, h, hgood, _ => by
    rw [addMatches] at h
    have he := Option.some.inj h
    exact he ▸ hgood
  | m :: rest, pcx, pc', loc, s, sc, locs, h, hgood, hloc => by
    rw [addMatches] at h
    cases hp : perCatAppend pcx m.1 (mkClause s sc m.2 loc) with
    | none =>
      rw [hp] at h
      simp at h
    | some pc1 =>
      rw [hp] at h
      refine addMatches_good rest pc1 pc' loc s sc locs h ?_ hloc
      intro e he c hc
      rcases perCatAppend_good pcx pc1 m.1 (mkClause s sc m.2 loc) hp e he c hc with
        ⟨e', he', hc'⟩ | hcl
      · exact hgood e' he' c hc'
      · exact ⟨loc, hloc, by rw [hcl]; rfl⟩

theorem processSentence_good (cfg : Config) (loc : String)
    (pcx pc' : List (String × List Clause)) (s : String) (locs : List String)
    (h : processSentence cfg loc pcx s = some pc')
    (hgood : ClausesGood locs pcx) (hloc : loc ∈ locs) : ClausesGood locs pc' := by
  rw [processSentence] at h
  by_cases hemp : (tag_sentence_v17 s cfg.keywords).isEmpty = true
  · rw [if_pos hemp] at h
    have he := Option.some.inj h
    exact he ▸ hgood
  · rw [if_neg hemp] at h
    exact addMatches_good _ _ _ _ _ _ _ h hgood hloc

theorem processSentences_good : ∀ (ss : List String) (cfg : Config) (loc : String)
    (pcx pc' : List (String × List Clause)) (locs : List String),
    processSentences cfg loc pcx ss = some pc' →
    ClausesGood locs pcx → loc ∈ locs → ClausesGood locs pc'
  | [], cfg, loc, pcx, pc', locs, h, hgood, _ => by
    rw [processSentences] at h
    have he := Option.some.inj h
    exact he ▸ hgood
  | s :: rest, cfg, loc, pcx, pc', locs, h, hgood, hloc => by
    rw [processSentences] at h
    cases hp : processSentence cfg loc pcx s with
    | none =>
      rw [hp] at h
      simp at h
    | some pc1 =>
      rw [hp] at h
      exact processSentences_good rest cfg loc pc1 pc' locs h
        (processSentence_good cfg loc pcx pc1 s locs hp hgood hloc) hloc

theorem processPage_good (cfg : Config) (acc acc' : List (String × List Clause) × String)
    (pg : Nat × String) (locs : List String)
    (h : processPage cfg acc pg = some acc')
    (hgood : ClausesGood locs acc.1)
    (hloc : ("Page " ++ toString pg.1) ∈ locs) : ClausesGood locs acc'.1 := by
  rw [processPage] at h
  cases hp : processSentences cfg ("Page " ++ toString pg.1) acc.1
      (sentences (clean_text pg.2)) with
  | none =>
    rw [hp] at h
    simp at h
  | some pc1 =>
    rw [hp] at h
    have he := Option.some.inj h
    rw [← he]
    exact processSentences_good _ cfg _ acc.1 pc1 locs hp hgood hloc

theorem processPages_good : ∀ (pages : List (Nat × String)) (cfg : Config)
    (acc pc' : List (String × List Clause) × String) (locs : List String),
    processPages cfg acc pages = some pc' →
    ClausesGood locs acc.1 →
    (∀ pg ∈ pages, ("Page " ++ toString pg.1) ∈ locs) → ClausesGood locs pc'.1
  | [], cfg, acc, pc', locs, h, hgood, _ => by
    rw [processPages] at h
    have he := Option.some.inj h
    exact he ▸ hgood
  | pg :: rest, cfg, acc, pc', locs, h, hgood, hlocs => by
    rw [processPages] at h
    cases hp : processPage cfg acc pg with
    | none =>
      rw [hp] at h
      simp at h
    | some acc1 =>
      rw [hp] at h
      exact processPages_good rest cfg acc1 pc' locs h
        (processPage_good cfg acc acc1 pg locs hp hgood (hlocs pg (by simp)))
        (fun q hq => hlocs q (List.mem_cons_of_mem pg hq))

theorem perCatInit_good (cats : List String) (locs : List String) :
    ClausesGood locs (perCatInit cats) := by
  intro e he c hc
  rw [perCatInit] at he
  rcases List.mem_map.mp he with ⟨cat, -, hce⟩
  rw [← hce] at hc
  simp at hc

theorem insDesc_mem : ∀ (x : Clause) (l : List Clause) (c : Clause),
    c ∈ insDesc x l → c = x ∨ c ∈ l
  | x, [], c => by simp [insDesc]
  | x, y :: rest, c => by
    rw [insDesc]
    by_cases h : y.score ≤ x.score
    · rw [if_pos h]
      intro hc
      rcases List.mem_cons.mp hc with h1 | h2
      · exact Or.inl h1
      · exact Or.inr h2
    · rw [if_neg h]
      intro hc
      rcases List.mem_cons.mp hc with h1 | h2
      · exact Or.inr (by simp [h1])
      · rcases insDesc_mem x rest c h2 with h3 | h4
        · exact Or.inl h3
        · exact Or.inr (List.mem_cons_of_mem y h4)

theorem sortDesc_mem : ∀ (l : List Clause) (c : Clause), c ∈ sortDesc l → c ∈ l
  | [], c => by simp [sortDesc]
  | x :: rest, c => by
    rw [sortDesc]
    intro hc
    rcases insDesc_mem x (sortDesc rest) c hc with h1 | h2
    · simp [h1]
    · exact List.mem_cons_of_mem x (sortDesc_mem rest c h2)

theorem dictInsert_mem_sub : ∀ (m : List (String × Clause)) (k : String) (v : Clause)
    (p : String × Clause), p ∈ dictInsert m k v → p ∈ m ∨ p = (k, v)
  | [], k, v, p => by
    intro hp
    simp [dictInsert] at hp
    exact Or.inr hp
  | q :: rest, k, v, p => by
    rw [dictInsert]
    by_cases hq : q.1 = k
    · rw [if_pos hq]
      intro hp
      rcases List.mem_cons.mp hp with h1 | h2
      · exact Or.inr h1
      · exact Or.inl (List.mem_cons_of_mem q h2)
    · rw [if_neg hq]
      intro hp
      rcases List.mem_cons.mp hp with h1 | h2
      · exact Or.inl (by simp [h1])
      · rcases dictInsert_mem_sub rest k v p h2 with h3 | h4
        · exact Or.inl (List.mem_cons_of_mem q h3)
        · exact Or.inr h4

theorem ddGo_mem : ∀ (items : List Clause) (m : List (String × Clause))
    (p : String × Clause), p ∈ ddGo m items → p ∈ m ∨ p.2 ∈ items
  | [], m, p => by
    rw [ddGo]
    exact fun h => Or.inl h
  | it :: rest, m, p => by
    rw [ddGo]
    intro hp
    rcases ddGo_mem rest (dictInsert m it.text it) p hp with h1 | h2
    · rcases dictInsert_mem_sub m it.text it p h1 with h3 | h4
      · exact Or.inl h3
      · refine Or.inr ?_
        rw [h4]
        simp
    · exact Or.inr (List.mem_cons_of_mem it h2)

theorem dictDedup_mem (items : List Clause) (c : Clause) (hc : c ∈ dictDedup items) :
    c ∈ items := by
  rw [dictDedup] at hc
  rcases List.mem_map.mp hc with ⟨p, hp, hpc⟩
  rcases ddGo_mem items [] p hp with h1 | h2
  · simp at h1
  · exact hpc ▸ h2

theorem take_mem : ∀ (l : List Clause) (n : Nat) (c : Clause), c ∈ l.take n → c ∈ l
  | [], n, c => by simp
  | x :: rest, 0, c => by simp
  | x :: rest, n + 1, c => by
    rw [List.take_succ_cons]
    intro hc
    rcases List.mem_cons.mp hc with h1 | h2
    · simp [h1]
    · exact List.mem_cons_of_mem x (take_mem rest n c h2)

theorem selectTop_mem (items : List Clause) (c : Clause) (hc : c ∈ selectTop items) :
    c ∈ items := by
  rw [selectTop] at hc
  exact sortDesc_mem items c (dictDedup_mem _ c (take_mem _ _ c hc))

theorem alookup_mem : ∀ (pcx : List (String × List Clause)) (cat : String)
    (v : List Clause), alookup pcx cat = some v → ∃ e ∈ pcx, e.2 = v
  | [], cat, v => by simp [alookup]
  | p :: rest, cat, v => by
    rw [alookup]
    by_cases hq : p.1 = cat
    · rw [if_pos hq]
      intro h
      exact ⟨p, by simp, Option.some.inj h⟩
    · rw [if_neg hq]
      intro h
      rcases alookup_mem rest cat v h with ⟨e, he, hev⟩
      exact ⟨e, List.mem_cons_of_mem p he, hev⟩

theorem buildCategories_bullets : ∀ (cats : List String)
    (summ : String → Nat → Nat → Option (Option String))
    (pcx : List (String × List Clause)) (cr : CategoryResult),
    cr ∈ (buildCategories summ pcx cats).1 → ∀ b ∈ cr.bullets, ∃ e ∈ pcx, b ∈ e.2
  | [], summ, pcx, cr => by simp [buildCategories]
  | cat :: rest, summ, pcx, cr => by
    rw [buildCategories]
    by_cases hemp : ((alookup pcx cat).getD []).isEmpty = true
    · rw [if_pos hemp]
      exact buildCategories_bullets rest summ pcx cr
    · rw [if_neg hemp]
      by_cases hsel : (selectTop ((alookup pcx cat).getD [])).isEmpty = true
      · rw [if_pos hsel]
        exact buildCategories_bullets rest summ pcx cr
      · rw [if_neg hsel]
        intro hcr b hb
        rcases List.mem_cons.mp hcr with h1 | h2
        · have hbsel : b ∈ selectTop ((alookup pcx cat).getD []) := by
            rw [h1] at hb
            exact hb
          have hmem := selectTop_mem _ b hbsel
          cases halo : alookup pcx cat with
          | none =>
            rw [halo] at hmem
            simp at hmem
          | some v =>
            rw [halo] at hmem
            rcases alookup_mem pcx cat v halo with ⟨e, he, hev⟩
            exact ⟨e, he, by rw [hev]; simpa using hmem⟩
        · exact buildCategories_bullets rest summ pcx cr h2 b hb

/-- C10: every bullet of every category in a returned `DocumentResult`
carries a provenance mapping with exactly the two keys "snippet" and
"location" in that order; its "snippet" value is the bullet's own sentence
text and its "location" value is "Page p" for one of the input page
numbers `p`. -/
theorem C10_provenance :
    ∀ (summ : String → Nat → Nat → Option (Option String))
      (pages : List (Nat × String)) (cfg : Config) (res : DocumentResult),
    processDocument summ pages cfg = some res →
    ∀ cr ∈ res.categories, ∀ b ∈ cr.bullets,
      b.provenance.map (fun q => q.1) = ["snippet", "location"] ∧
      alookup b.provenance "snippet" = some b.text ∧
      ∃ pg ∈ pages, alookup b.provenance "location" = some ("Page " ++ toString pg.1) := by
  intro summ pages cfg res hres cr hcr b hb
  rw [processDocument] at hres
  cases hpp : processPages cfg (perCatInit cfg.categories, "") pages with
  | none =>
    rw [hpp] at hres
    exact absurd hres (by simp)
  | some pcr =>
    obtain ⟨pcx, ft⟩ := pcr
    rw [hpp] at hres
    have h := Option.some.inj hres
    subst h
    have hcats : cr ∈ (buildCategories summ pcx cfg.categories).1 := hcr
    rcases buildCategories_bullets cfg.categories summ pcx cr hcats b hb with ⟨e, he, hbe⟩
    have hgood : ClausesGood (pages.map (fun pg => "Page " ++ toString pg.1)) pcx :=
      processPages_good pages cfg (perCatInit cfg.categories, "") (pcx, ft) _ hpp
        (perCatInit_good cfg.categories _)
        (fun pg hpg => List.mem_map.mpr ⟨pg, hpg, rfl⟩)
    rcases hgood e he b hbe with ⟨l, hl, hprov⟩
    rcases List.mem_map.mp hl with ⟨pg, hpg, hpgl⟩
    refine ⟨by rw [hprov]; rfl, ?_, ⟨pg, hpg, ?_⟩⟩
    · rw [hprov, alookup, if_pos rfl]
    · rw [hprov, alookup, if_neg (by simp), alookup, if_pos rfl, hpgl]

/-- Witness for C10 at a concrete one-page document. -/
theorem C10_witness :
    processDocument sumFail pagesC10 cfgC10 = some resC10 ∧
    crC10 ∈ resC10.categories ∧ clC10 ∈ crC10.bullets ∧
    (clC10.provenance.map (fun q => q.1) = ["snippet", "location"] ∧
     alookup clC10.provenance "snippet" = some clC10.text ∧
     ∃ pg ∈ pagesC10, alookup clC10.provenance "location" = some ("Page " ++ toString pg.1)) :=
  ⟨by rfl, by simp [resC10], by simp [crC10],
   C10_provenance sumFail pagesC10 cfgC10 resC10 (by rfl) crC10 (by simp [resC10])
     clC10 (by simp [crC10])⟩

end TCA
